import Mathlib

/-!
Shallow embedding of `allowance.py`: the CSV loader (`parse_allowance_csv`),
the currency formatter (`format_currency`), the per-class table renderer
(`create_state_table`), the anchor derivation, and the input-selection logic
of `create_ichra_document`.  Pure data and cell texts are modelled; visual
styling (colors, borders, fonts) carries no data and is not represented.
-/

/-- ASCII whitespace test used by the embedding of Python `str.strip`. -/
def isSpaceChar (c : Char) : Bool := c.isWhitespace

/-- Embedding of Python `str.strip` at the character-list level: drop
whitespace from both ends. -/
def pyStrip (cs : List Char) : List Char :=
  ((cs.dropWhile isSpaceChar).reverse.dropWhile isSpaceChar).reverse

/-- Embedding of Python `str.strip` on strings. -/
def strip (s : String) : String := String.mk (pyStrip s.data)

/-- The eight named rate fields stored for one (class, age) key; mirrors the
dict literal built in the loop of `parse_allowance_csv`. -/
structure RateRow where
  EE : String
  ES : String
  EC1 : String
  EC2 : String
  ECmax : String
  FA1 : String
  FA2 : String
  FAmax : String
  deriving DecidableEq

/-- One CSV record as produced by `csv.DictReader`: the required `class` and
`ageFrom` columns, and the eight optional rate columns already defaulted to
`""` when absent (Python `row.get(name, '')`). -/
structure RowRec where
  cls : String
  ageFrom : String
  EE : String
  ES : String
  EC1 : String
  EC2 : String
  ECmax : String
  FA1 : String
  FA2 : String
  FAmax : String
  deriving DecidableEq

/-- The age-band key stored for a trimmed `ageFrom` value:
`age_key = age_from if age_from != '64' else '64+'`. -/
def ageKeyStr (t : String) : String := if t = "64" then "64+" else t

/-- The class component of a row's storage key: `row['class'].strip()`. -/
def rowClassKey (r : RowRec) : String := strip r.cls

/-- The age component of a row's storage key:
`row['ageFrom'].strip()` remapped through `ageKeyStr`. -/
def rowAgeKey (r : RowRec) : String := ageKeyStr (strip r.ageFrom)

/-- The stored rate fields of a row: each optional column, stripped. -/
def rateRowOf (r : RowRec) : RateRow :=
  { EE := strip r.EE, ES := strip r.ES, EC1 := strip r.EC1, EC2 := strip r.EC2,
    ECmax := strip r.ECmax, FA1 := strip r.FA1, FA2 := strip r.FA2,
    FAmax := strip r.FAmax }

/-- First-match lookup in an insertion-ordered association list (Python
`dict` lookup; keys are unique by construction of `setA`). -/
def lookupA {α : Type} : List (String × α) → String → Option α
  | [], _ => none
  | (k, v) :: rest, q => if k = q then some v else lookupA rest q

/-- Python `dict` assignment `d[k] = v`: replace in place when the key is
present, append at the end otherwise. -/
def setA {α : Type} : List (String × α) → String → α → List (String × α)
  | [], q, v => [(q, v)]
  | (k, w) :: rest, q, v => if k = q then (q, v) :: rest else (k, w) :: setA rest q v

/-- `allowances`: class name → (age-band key → RateRow), both Python dicts
modelled as insertion-ordered association lists. -/
abbrev AllowanceData : Type := List (String × List (String × RateRow))

/-- The loop body's store: ensure the class's inner dict exists, then assign
the age key (`allowances[class_name][age_key] = {...}`). -/
def setClassAge : AllowanceData → String → String → RateRow → AllowanceData
  | [], c, a, v => [(c, [(a, v)])]
  | (k, am) :: rest, c, a, v =>
    if k = c then (k, setA am a v) :: rest else (k, am) :: setClassAge rest c a v

/-- Sorted insertion without duplicates.  The Python loader collects class
names in a `set` during the loop and applies `sorted` at the end; folding
this insertion yields the same sorted duplicate-free list. -/
def insertSorted (x : String) : List String → List String
  | [] => [x]
  | y :: ys =>
    if x < y then x :: y :: ys
    else if x = y then y :: ys
    else y :: insertSorted x ys

/-- Embedding of `parse_allowance_csv`: collect the class-name list (sorted,
deduplicated) and the nested allowance dict, later rows overwriting earlier
ones at the same (class, age) key.  The Python single loop updating both is
split into one fold per component. -/
def parse_allowance_csv (rows : List RowRec) : List String × AllowanceData :=
  (rows.foldl (fun acc r => insertSorted (rowClassKey r) acc) [],
   rows.foldl (fun acc r => setClassAge acc (rowClassKey r) (rowAgeKey r) (rateRowOf r)) [])

/-- Lookup of the stored rate fields for a (class, age) key. -/
def lookupRate (d : AllowanceData) (c a : String) : Option RateRow :=
  (lookupA d c).bind (fun am => lookupA am a)

/-- Reference function for the spec's last-row-wins rule: the rate fields of
the last input row whose (class, age) key matches. -/
def lastMatchingRate (rows : List RowRec) (c a : String) : Option RateRow :=
  rows.foldl
    (fun acc r => if rowClassKey r = c ∧ rowAgeKey r = a then some (rateRowOf r) else acc)
    none

/-- Value of a decimal digit character. -/
def digitVal (c : Char) : Nat := c.toNat - 48

/-- Numeric value of a digit string, most significant digit first. -/
def natOfDigits (ds : List Char) : Nat := ds.foldl (fun acc c => acc * 10 + digitVal c) 0

/-- Fuel-bounded decimal digits of a natural number, most significant first
(empty for 0; the fuel only bounds the recursion depth). -/
def natDigitsAux : Nat → Nat → List Char
  | 0, _ => []
  | fuel + 1, n => if n = 0 then [] else natDigitsAux fuel (n / 10) ++ [Nat.digitChar (n % 10)]

/-- Decimal digits of a natural number, most significant first. -/
def natDigits (n : Nat) : List Char := if n = 0 then ['0'] else natDigitsAux n n

/-- Insert a comma after every third character of a reversed digit list:
the grouping performed by Python's `:,` format specifier, seen from the
least significant end. -/
def groupRev : List Char → List Char
  | [] => []
  | [a] => [a]
  | [a, b] => [a, b]
  | a :: b :: c :: rest =>
    if rest.isEmpty then [a, b, c]
    else a :: b :: c :: ',' :: groupRev rest

/-- Python `f'{amount:,}'` for an integer: sign, then decimal digits grouped
in threes by commas from the right. -/
def commaFormat (n : Int) : String :=
  (if n < 0 then "-" else "") ++ String.mk ((groupRev (natDigits n.natAbs).reverse).reverse)

/-- Characters kept by `value.replace('$', '').replace(',', '')`: replacing
a single-character pattern by the empty string deletes those characters. -/
def keepChar (c : Char) : Bool := !(c == '$' || c == ',')

/-- `value.replace('$', '').replace(',', '').strip()` on character lists. -/
def cleanChars (cs : List Char) : List Char := pyStrip (cs.filter keepChar)

/-- `value.replace('$', '').replace(',', '').strip()`. -/
def cleanCurrency (v : String) : String := String.mk (cleanChars v.data)

/-- Embedding of `int(float(s))` on the plain decimal fragment of Python
float syntax: optional sign, integer digits, optional `.` and fraction
digits, at least one digit overall; the result is the exactly truncated
integer value.  `none` models the exception caught by `format_currency`.
(Exponent, infinity, nan and underscore forms, and the rounding of literals
with 17 or more significant digits, are outside the model.) -/
def parseFloatTruncInt (s : String) : Option Int :=
  let neg : Bool := decide (s.data.head? = some '-')
  let body : List Char :=
    if s.data.head? = some '-' ∨ s.data.head? = some '+' then s.data.tail else s.data
  let intDigits := body.takeWhile Char.isDigit
  let ok : Bool :=
    match body.dropWhile Char.isDigit with
    | [] => !intDigits.isEmpty
    | '.' :: fracs => fracs.all Char.isDigit && (!intDigits.isEmpty || !fracs.isEmpty)
    | _ => false
  if ok then some (if neg then -(natOfDigits intDigits : Int) else (natOfDigits intDigits : Int))
  else none

/-- Embedding of `format_currency`: empty in, empty out; empty after
cleaning, empty out; parseable, dollar-formatted truncated amount;
otherwise the original value unchanged (the bare `except` branch). -/
def format_currency (value : String) : String :=
  if value = "" then ""
  else if cleanCurrency value = "" then ""
  else
    match parseFloatTruncInt (cleanCurrency value) with
    | some amount => "$" ++ commaFormat amount
    | none => value

/-- The fixed header row of every class table. -/
def headers : List String :=
  ["Age", "You", "You + spouse", "You + 1 child", "You + 2 children",
   "You + 3 (or more) children", "You + spouse + 1 child",
   "You + spouse + 2 children", "You + spouse + 3 (or more) children"]

/-- `ages = list(range(18, 64)) + ['64+']`, each entry under `str` as the
code applies to it. -/
def ages : List String := (List.range' 18 46).map toString ++ ["64+"]

/-- The eight data-column field projections, in column order 1 through 8. -/
def columnMapping : List (RateRow → String) :=
  [RateRow.EE, RateRow.ES, RateRow.EC1, RateRow.EC2, RateRow.ECmax,
   RateRow.FA1, RateRow.FA2, RateRow.FAmax]

/-- The cell texts of one data row of a class table: the age label, then
the eight rate cells — currency-formatted when the class stores this age
key (`state_allowances.get(age_key, {})` truthy) and blank otherwise. -/
def renderDataRow (d : AllowanceData) (c : String) (ageStr : String) : List String :=
  match lookupA ((lookupA d c).getD []) ageStr with
  | some rr => ageStr :: columnMapping.map (fun f => format_currency (f rr))
  | none => ageStr :: columnMapping.map (fun _ => "")

/-- Row count of the table created by `doc.add_table(rows=48, cols=9)`. -/
def tableRowCount : Nat := 48

/-- Embedding of `create_state_table`: the cell texts of the rendered table
for one class — the header row, then, for `enumerate(ages, start=1)`, each
data row whose index passes the `row_idx < len(table.rows)` guard. -/
def create_state_table (d : AllowanceData) (c : String) : List (List String) :=
  headers ::
    (List.enumFrom 1 ages).filterMap
      (fun p => if p.1 < tableRowCount then some (renderDataRow d c p.2) else none)

/-- Anchor computed for each table-of-contents hyperlink:
`state.lower().replace(' ', '_').replace('-', '_')` (ASCII lower-casing;
each single-character replace is a character map). -/
def tocAnchor (s : String) : String :=
  String.mk (((s.data.map Char.toLower).map (fun c => if c = ' ' then '_' else c)).map
    (fun c => if c = '-' then '_' else c))

/-- Anchor computed for each per-class section bookmark, from the second
occurrence of the same expression in `create_ichra_document`. -/
def sectionAnchor (s : String) : String :=
  String.mk (((s.data.map Char.toLower).map (fun c => if c = ' ' then '_' else c)).map
    (fun c => if c = '-' then '_' else c))

/-- Observable output of `create_ichra_document`: the resolved class list,
the table-of-contents anchors, and the rendered per-class tables.  The
Python function unconditionally builds and saves the document on this path;
a total function (no error component) is the faithful model. -/
structure GeneratedDoc where
  states : List String
  tocAnchors : List String
  tables : List (String × List (List String))

/-- Embedding of the input-selection and page-generation logic of
`create_ichra_document`.  `fs` models the filesystem: the parsed records of
each readable CSV path, `none` where `os.path.exists` is false.  The
truthiness test `if csv_path and os.path.exists(csv_path)` makes an empty
path string count as not provided; when the test fails the code falls to
`elif states is None: states = []`, keeping any explicit class list. -/
def create_ichra_document (fs : String → Option (List RowRec))
    (csv_path : Option String) (classArg : Option (List String)) : GeneratedDoc :=
  let loaded : List String × AllowanceData :=
    match csv_path with
    | some p =>
      if p ≠ "" then
        match fs p with
        | some rows => parse_allowance_csv rows
        | none => (classArg.getD [], [])
      else (classArg.getD [], [])
    | none => (classArg.getD [], [])
  { states := loaded.1
    tocAnchors := loaded.1.map tocAnchor
    tables := loaded.1.map (fun st => (st, create_state_table loaded.2 st)) }

/-- Sample record: class "A", age 20, one populated rate column. -/
def rowA20 : RowRec :=
  { cls := "A", ageFrom := "20", EE := "100", ES := "", EC1 := "", EC2 := "",
    ECmax := "", FA1 := "", FA2 := "", FAmax := "" }

/-- Sample record with an out-of-band age value: class "A", ageFrom "99". -/
def rowA99 : RowRec :=
  { cls := "A", ageFrom := "99", EE := "1", ES := "", EC1 := "", EC2 := "",
    ECmax := "", FA1 := "", FA2 := "", FAmax := "" }

theorem string_data_append (a b : String) : (a ++ b).data = a.data ++ b.data := by
  cases a; cases b; rfl

theorem string_ne_empty_of_data {s : String} {c : Char} {cs : List Char}
    (h : s.data = c :: cs) : s ≠ "" := by
  intro he
  rw [he] at h
  exact absurd h (by simp [String.data])

theorem lookupA_setA {α : Type} (l : List (String × α)) (k q : String) (v : α) :
    lookupA (setA l k v) q = if k = q then some v else lookupA l q := by
  induction l with
  | nil => simp [setA, lookupA]
  | cons hd tl ih =>
    obtain ⟨k1, w⟩ := hd
    by_cases hk : k1 = k
    · subst hk
      simp only [setA, if_pos rfl, lookupA]
      by_cases hq : k1 = q <;> simp [hq]
    · simp only [setA, if_neg hk, lookupA]
      by_cases hq : k1 = q
      · subst hq
        have : ¬(k = k1) := fun h => hk h.symm
        simp [this]
      · simp [hq, ih]

theorem lookupRate_setClassAge (d : AllowanceData) (c a : String) (v : RateRow)
    (c' a' : String) :
    lookupRate (setClassAge d c a v) c' a' =
      if c = c' ∧ a = a' then some v else lookupRate d c' a' := by
  induction d with
  | nil =>
    simp only [setClassAge, lookupRate, lookupA]
    by_cases hc : c = c'
    · subst hc
      simp only [if_pos rfl, Option.some_bind]
      by_cases ha : a = a' <;> simp [ha, lookupA]
    · have : ¬(c = c' ∧ a = a') := fun h => hc h.1
      simp [hc, this]
  | cons hd tl ih =>
    obtain ⟨k, am⟩ := hd
    by_cases hk : k = c
    · subst hk
      simp only [setClassAge, if_pos rfl, lookupRate, lookupA]
      by_cases hq : k = c'
      · subst hq
        simp only [eq_self_iff_true, if_true, true_and, Option.some_bind]
        exact lookupA_setA am a a' v
      · have : ¬(k = c' ∧ a = a') := fun h => hq h.1
        simp [hq, this, lookupRate, lookupA]
    · simp only [setClassAge, if_neg hk, lookupRate, lookupA]
      by_cases hq : k = c'
      · subst hq
        have hne : ¬(c = k ∧ a = a') := fun h => hk h.1.symm
        simp [hne]
      · simpa [hq, lookupRate] using ih

theorem lookupRate_foldl (rows : List RowRec) (d : AllowanceData) (c a : String) :
    lookupRate
        (rows.foldl (fun acc r => setClassAge acc (rowClassKey r) (rowAgeKey r) (rateRowOf r)) d)
        c a
      = rows.foldl
          (fun acc r =>
            if rowClassKey r = c ∧ rowAgeKey r = a then some (rateRowOf r) else acc)
          (lookupRate d c a) := by
  induction rows generalizing d with
  | nil => rfl
  | cons r rs ih =>
    simp only [List.foldl_cons]
    rw [ih, lookupRate_setClassAge]

theorem lookupRate_parse (rows : List RowRec) (c a : String) :
    lookupRate (parse_allowance_csv rows).2 c a = lastMatchingRate rows c a := by
  unfold parse_allowance_csv lastMatchingRate
  simpa using lookupRate_foldl rows [] c a

theorem foldl_lastMatch_isSome (rows : List RowRec) (c a : String) (acc : Option RateRow) :
    (rows.foldl
        (fun acc r =>
          if rowClassKey r = c ∧ rowAgeKey r = a then some (rateRowOf r) else acc)
        acc).isSome = true
      ↔ (∃ r ∈ rows, rowClassKey r = c ∧ rowAgeKey r = a) ∨ acc.isSome = true := by
  induction rows generalizing acc with
  | nil => simp
  | cons r rs ih =>
    simp only [List.foldl_cons]
    rw [ih]
    by_cases h : rowClassKey r = c ∧ rowAgeKey r = a
    · simp [h]
    · simp only [if_neg h, List.mem_cons]
      constructor
      · rintro (⟨r', hr', hm⟩ | hacc)
        · exact Or.inl ⟨r', Or.inr hr', hm⟩
        · exact Or.inr hacc
      · rintro (⟨r', hr' | hr', hm⟩ | hacc)
        · exact absurd (hr' ▸ hm) h
        · exact Or.inl ⟨r', hr', hm⟩
        · exact Or.inr hacc

theorem mem_insertSorted (x a : String) (l : List String) :
    a ∈ insertSorted x l ↔ a = x ∨ a ∈ l := by
  induction l with
  | nil => simp [insertSorted]
  | cons y ys ih =>
    by_cases h1 : x < y
    · rw [show insertSorted x (y :: ys) = x :: y :: ys from by simp [insertSorted, h1]]
      simp [List.mem_cons]
    · by_cases h2 : x = y
      · rw [show insertSorted x (y :: ys) = y :: ys from by simp [insertSorted, h1, h2]]
        subst h2
        simp only [List.mem_cons]
        tauto
      · rw [show insertSorted x (y :: ys) = y :: insertSorted x ys from by
          simp [insertSorted, h1, h2]]
        simp only [List.mem_cons, ih]
        tauto

theorem sorted_insertSorted (x : String) (l : List String) (hl : l.Sorted (· < ·)) :
    (insertSorted x l).Sorted (· < ·) := by
  induction l with
  | nil => simp [insertSorted]
  | cons y ys ih =>
    rw [List.sorted_cons] at hl
    obtain ⟨hy, hys⟩ := hl
    simp only [insertSorted]
    by_cases h1 : x < y
    · rw [if_pos h1, List.sorted_cons]
      refine ⟨?_, List.sorted_cons.mpr ⟨hy, hys⟩⟩
      intro b hb
      rcases List.mem_cons.mp hb with hb | hb
      · exact hb ▸ h1
      · exact lt_trans h1 (hy b hb)
    · by_cases h2 : x = y
      · simp only [if_neg h1, if_pos h2]
        exact List.sorted_cons.mpr ⟨hy, hys⟩
      · simp only [if_neg h1, if_neg h2]
        rw [List.sorted_cons]
        refine ⟨?_, ih hys⟩
        intro b hb
        rcases (mem_insertSorted x b ys).mp hb with hb | hb
        · subst hb
          exact lt_of_le_of_ne (not_lt.mp h1) (fun h => h2 h.symm)
        · exact hy b hb

theorem sorted_classesFold (rows : List RowRec) (acc : List String)
    (hacc : acc.Sorted (· < ·)) :
    (rows.foldl (fun acc r => insertSorted (rowClassKey r) acc) acc).Sorted (· < ·) := by
  induction rows generalizing acc with
  | nil => exact hacc
  | cons r rs ih => exact ih _ (sorted_insertSorted _ _ hacc)

theorem mem_classesFold (rows : List RowRec) (acc : List String) (c : String) :
    c ∈ rows.foldl (fun acc r => insertSorted (rowClassKey r) acc) acc
      ↔ (∃ r ∈ rows, rowClassKey r = c) ∨ c ∈ acc := by
  induction rows generalizing acc with
  | nil => simp
  | cons r rs ih =>
    simp only [List.foldl_cons]
    rw [ih, mem_insertSorted]
    simp only [List.mem_cons]
    constructor
    · rintro (⟨r', hr', hm⟩ | (hc | hc))
      · exact Or.inl ⟨r', Or.inr hr', hm⟩
      · exact Or.inl ⟨r, Or.inl rfl, hc.symm⟩
      · exact Or.inr hc
    · rintro (⟨r', hr' | hr', hm⟩ | hc)
      · exact Or.inr (Or.inl (hr' ▸ hm).symm)
      · exact Or.inl ⟨r', hr', hm⟩
      · exact Or.inr (Or.inr hc)

theorem enumFrom_filterMap_lt {α β : Type} (f : α → β) :
    ∀ (l : List α) (k : Nat), k + l.length ≤ tableRowCount →
      (List.enumFrom k l).filterMap
          (fun p => if p.1 < tableRowCount then some (f p.2) else none)
        = l.map f := by
  intro l
  induction l with
  | nil => intro k _; rfl
  | cons x xs ih =>
    intro k hk
    have hklt : k < tableRowCount := by
      simp only [List.length_cons] at hk
      omega
    simp only [List.enumFrom, List.filterMap_cons, if_pos hklt, List.map_cons]
    rw [ih (k + 1) (by simp only [List.length_cons] at hk; omega)]

theorem create_state_table_eq (d : AllowanceData) (c : String) :
    create_state_table d c = headers :: ages.map (renderDataRow d c) := by
  unfold create_state_table
  rw [enumFrom_filterMap_lt (renderDataRow d c) ages 1]
  have : ages.length = 47 := by
    simp [ages, List.length_append, List.length_map, List.length_range']
  rw [this]
  decide

theorem ages_length : ages.length = 47 := by
  simp [ages, List.length_append, List.length_map, List.length_range']

theorem renderDataRow_head (d : AllowanceData) (c a : String) :
    (renderDataRow d c a).head? = some a := by
  unfold renderDataRow
  rcases h : lookupA ((lookupA d c).getD []) a with _ | rr <;> rfl

theorem lookupA_getD_lookupRate (d : AllowanceData) (c a : String) :
    lookupA ((lookupA d c).getD []) a = lookupRate d c a := by
  unfold lookupRate
  cases lookupA d c <;> simp [lookupA]

theorem renderDataRow_blank (d : AllowanceData) (c a : String)
    (h : lookupRate d c a = none) :
    renderDataRow d c a = a :: List.replicate 8 "" := by
  unfold renderDataRow
  rw [lookupA_getD_lookupRate, h]
  rfl

theorem digitVal_digitChar (d : Nat) (hd : d < 10) : digitVal (Nat.digitChar d) = d := by
  interval_cases d <;> decide

theorem digitChar_props (d : Nat) (hd : d < 10) :
    (Nat.digitChar d).isDigit = true ∧ keepChar (Nat.digitChar d) = true
      ∧ isSpaceChar (Nat.digitChar d) = false := by
  interval_cases d <;> exact ⟨rfl, rfl, rfl⟩

theorem natDigitsAux_props :
    ∀ (fuel n : Nat) (c : Char), c ∈ natDigitsAux fuel n →
      c.isDigit = true ∧ keepChar c = true ∧ isSpaceChar c = false := by
  intro fuel
  induction fuel with
  | zero => intro n c hc; simp [natDigitsAux] at hc
  | succ fuel ih =>
    intro n c hc
    by_cases hn : n = 0
    · simp [natDigitsAux, hn] at hc
    · rw [show natDigitsAux (fuel + 1) n
          = natDigitsAux fuel (n / 10) ++ [Nat.digitChar (n % 10)] from by
        simp [natDigitsAux, hn]] at hc
      rcases List.mem_append.mp hc with hc | hc
      · exact ih (n / 10) c hc
      · have : c = Nat.digitChar (n % 10) := by simpa using hc
        subst this
        exact digitChar_props (n % 10) (Nat.mod_lt n (by omega))

theorem natDigits_props (n : Nat) (c : Char) (hc : c ∈ natDigits n) :
    c.isDigit = true ∧ keepChar c = true ∧ isSpaceChar c = false := by
  by_cases hn : n = 0
  · rw [show natDigits n = ['0'] from by simp [natDigits, hn]] at hc
    have : c = '0' := by simpa using hc
    subst this
    exact ⟨rfl, rfl, rfl⟩
  · rw [show natDigits n = natDigitsAux n n from by simp [natDigits, hn]] at hc
    exact natDigitsAux_props n n c hc

theorem digit_ne_sign (c : Char) (hc : c.isDigit = true) : c ≠ '-' ∧ c ≠ '+' := by
  constructor
  · rintro rfl
    exact absurd hc (by decide)
  · rintro rfl
    exact absurd hc (by decide)

theorem natOfDigits_append_single (l : List Char) (c : Char) :
    natOfDigits (l ++ [c]) = natOfDigits l * 10 + digitVal c := by
  unfold natOfDigits
  rw [List.foldl_append]
  rfl

theorem natOfDigits_natDigitsAux :
    ∀ (fuel n : Nat), n ≤ fuel → natOfDigits (natDigitsAux fuel n) = n := by
  intro fuel
  induction fuel with
  | zero =>
    intro n hn
    have : n = 0 := by omega
    subst this
    rfl
  | succ fuel ih =>
    intro n hn
    by_cases h0 : n = 0
    · subst h0
      rfl
    · rw [show natDigitsAux (fuel + 1) n
          = natDigitsAux fuel (n / 10) ++ [Nat.digitChar (n % 10)] from by
        simp [natDigitsAux, h0]]
      rw [natOfDigits_append_single]
      have hdiv : n / 10 < n := Nat.div_lt_self (by omega) (by omega)
      rw [ih (n / 10) (by omega)]
      rw [digitVal_digitChar (n % 10) (Nat.mod_lt n (by omega))]
      omega

theorem natOfDigits_natDigits (n : Nat) : natOfDigits (natDigits n) = n := by
  by_cases hn : n = 0
  · subst hn
    rfl
  · rw [show natDigits n = natDigitsAux n n from by simp [natDigits, hn]]
    exact natOfDigits_natDigitsAux n n le_rfl

theorem natDigits_ne_nil (n : Nat) : natDigits n ≠ [] := by
  by_cases hn : n = 0
  · subst hn
    decide
  · rw [show natDigits n = natDigitsAux n n from by simp [natDigits, hn]]
    obtain ⟨m, hm⟩ : ∃ m, n = m + 1 := ⟨n - 1, by omega⟩
    subst hm
    rw [show natDigitsAux (m + 1) (m + 1)
        = natDigitsAux m ((m + 1) / 10) ++ [Nat.digitChar ((m + 1) % 10)] from by
      simp [natDigitsAux]]
    simp

theorem dropWhile_eq_self_of_all {p : Char → Bool} (l : List Char)
    (h : ∀ c ∈ l, p c = false) : l.dropWhile p = l := by
  cases l with
  | nil => rfl
  | cons x xs =>
    rw [List.dropWhile_cons, h x (List.mem_cons_self x xs)]
    simp

theorem takeWhile_eq_self_of_all {p : Char → Bool} :
    ∀ l : List Char, (∀ c ∈ l, p c = true) → l.takeWhile p = l
  | [], _ => rfl
  | x :: xs, h => by
    rw [List.takeWhile_cons, h x (List.mem_cons_self x xs)]
    simp only [if_true]
    rw [takeWhile_eq_self_of_all xs (fun c hc => h c (List.mem_cons_of_mem x hc))]

theorem dropWhile_eq_nil_of_all {p : Char → Bool} :
    ∀ l : List Char, (∀ c ∈ l, p c = true) → l.dropWhile p = []
  | [], _ => rfl
  | x :: xs, h => by
    rw [List.dropWhile_cons, h x (List.mem_cons_self x xs)]
    simp only [if_true]
    exact dropWhile_eq_nil_of_all xs (fun c hc => h c (List.mem_cons_of_mem x hc))

theorem pyStrip_eq_self (l : List Char) (h : ∀ c ∈ l, isSpaceChar c = false) :
    pyStrip l = l := by
  unfold pyStrip
  rw [dropWhile_eq_self_of_all l h,
    dropWhile_eq_self_of_all l.reverse (fun c hc => h c (List.mem_reverse.mp hc)),
    List.reverse_reverse]

theorem filter_keep_groupRev : ∀ l : List Char,
    (groupRev l).filter keepChar = l.filter keepChar
  | [] => rfl
  | [a] => rfl
  | [a, b] => rfl
  | a :: b :: c :: rest => by
    by_cases h : rest.isEmpty
    · have hrest : rest = [] := by
        cases rest with
        | nil => rfl
        | cons x xs => simp at h
      subst hrest
      rfl
    · have ih := filter_keep_groupRev rest
      rw [show groupRev (a :: b :: c :: rest) = a :: b :: c :: ',' :: groupRev rest from by
        simp [groupRev, h]]
      have hcm : keepChar ',' = false := rfl
      simp only [List.filter_cons, hcm, Bool.false_eq_true, if_false, ih]

theorem filter_keep_dollar_cons (l : List Char) :
    List.filter keepChar ('$' :: l) = List.filter keepChar l := by
  have : keepChar '$' = false := rfl
  simp only [List.filter_cons, this, Bool.false_eq_true, if_false]

theorem clean_dollar (n : Int) :
    cleanChars ("$" ++ commaFormat n).data
      = (if n < 0 then ['-'] else []) ++ natDigits n.natAbs := by
  have hdata : ("$" ++ commaFormat n).data
      = '$' :: ((if n < 0 then ['-'] else [])
          ++ (groupRev (natDigits n.natAbs).reverse).reverse) := by
    rw [string_data_append]
    unfold commaFormat
    rw [string_data_append]
    by_cases hn : n < 0 <;> simp [hn]
  unfold cleanChars
  rw [hdata, filter_keep_dollar_cons, List.filter_append]
  have h1 : List.filter keepChar (if n < 0 then ['-'] else [])
      = (if n < 0 then ['-'] else []) := by
    by_cases hn : n < 0 <;> simp [hn, List.filter, keepChar]
  have h2 : List.filter keepChar ((groupRev (natDigits n.natAbs).reverse).reverse)
      = natDigits n.natAbs := by
    rw [List.filter_reverse, filter_keep_groupRev, List.filter_reverse,
      List.reverse_reverse]
    exact List.filter_eq_self.mpr (fun a ha => (natDigits_props n.natAbs a ha).2.1)
  rw [h1, h2]
  apply pyStrip_eq_self
  intro c hc
  rcases List.mem_append.mp hc with hc | hc
  · by_cases hn : n < 0
    · rw [if_pos hn] at hc
      have : c = '-' := by simpa using hc
      subst this
      rfl
    · rw [if_neg hn] at hc
      simp at hc
  · exact (natDigits_props n.natAbs c hc).2.2

theorem parse_all_digits (l : List Char) (hne : l ≠ [])
    (hall : ∀ c ∈ l, Char.isDigit c = true) :
    parseFloatTruncInt (String.mk l) = some (natOfDigits l : Int) := by
  rcases l with _ | ⟨d0, ds⟩
  · exact absurd rfl hne
  · have hd0 : d0.isDigit = true := hall d0 (List.mem_cons_self _ _)
    have hsign := digit_ne_sign d0 hd0
    have htake := takeWhile_eq_self_of_all (d0 :: ds) hall
    have hdrop := dropWhile_eq_nil_of_all (d0 :: ds) hall
    simp only [parseFloatTruncInt, show (String.mk (d0 :: ds)).data = d0 :: ds from rfl,
      List.head?_cons, htake, hdrop, Option.some.injEq, hsign.1, hsign.2]
    simp [htake, hdrop]

theorem parse_dash_digits (l : List Char) (hne : l ≠ [])
    (hall : ∀ c ∈ l, Char.isDigit c = true) :
    parseFloatTruncInt (String.mk ('-' :: l)) = some (-(natOfDigits l : Int)) := by
  rcases l with _ | ⟨d0, ds⟩
  · exact absurd rfl hne
  · have htake := takeWhile_eq_self_of_all (d0 :: ds) hall
    have hdrop := dropWhile_eq_nil_of_all (d0 :: ds) hall
    simp only [parseFloatTruncInt,
      show (String.mk ('-' :: d0 :: ds)).data = '-' :: d0 :: ds from rfl,
      List.head?_cons, List.tail_cons, htake, hdrop]
    simp [htake, hdrop]

theorem parse_clean_dollar (n : Int) :
    parseFloatTruncInt (cleanCurrency ("$" ++ commaFormat n)) = some n := by
  unfold cleanCurrency
  rw [clean_dollar]
  by_cases hn : n < 0
  · rw [if_pos hn]
    rw [show ['-'] ++ natDigits n.natAbs = '-' :: natDigits n.natAbs from rfl]
    rw [parse_dash_digits _ (natDigits_ne_nil _) (fun c hc => (natDigits_props _ c hc).1)]
    rw [natOfDigits_natDigits]
    congr 1
    omega
  · rw [if_neg hn]
    rw [show ([] : List Char) ++ natDigits n.natAbs = natDigits n.natAbs from rfl]
    rw [parse_all_digits _ (natDigits_ne_nil _) (fun c hc => (natDigits_props _ c hc).1)]
    rw [natOfDigits_natDigits]
    congr 1
    omega

theorem dollar_ne_empty (n : Int) : ("$" ++ commaFormat n) ≠ "" := by
  apply string_ne_empty_of_data
    (show ("$" ++ commaFormat n).data = '$' :: (commaFormat n).data from by
      rw [string_data_append]
      rfl)

theorem clean_dollar_ne_empty (n : Int) : cleanCurrency ("$" ++ commaFormat n) ≠ "" := by
  unfold cleanCurrency
  rw [clean_dollar]
  rcases hnd : natDigits n.natAbs with _ | ⟨d0, ds⟩
  · exact absurd hnd (natDigits_ne_nil _)
  · by_cases hn : n < 0
    · rw [if_pos hn]
      exact string_ne_empty_of_data
        (show (String.mk (['-'] ++ d0 :: ds)).data = '-' :: d0 :: ds from rfl)
    · rw [if_neg hn]
      exact string_ne_empty_of_data
        (show (String.mk (([] : List Char) ++ d0 :: ds)).data = d0 :: ds from rfl)

theorem format_currency_dollar_fixed (n : Int) :
    format_currency ("$" ++ commaFormat n) = "$" ++ commaFormat n := by
  unfold format_currency
  rw [if_neg (dollar_ne_empty n), if_neg (clean_dollar_ne_empty n), parse_clean_dollar n]

/-- C1 (counterexample): at the concrete input of an empty allowance table
and class "A", `create_state_table` renders 47 age-band data rows, not the
49 age bands asserted by the claim. -/
theorem claim1_counterexample :
    (create_state_table [] "A").tail.length = 47
    ∧ ¬((create_state_table [] "A").tail.length = 49) := by decide

/-- C1 (amended): for every allowance table and class, the rendered class
table is the fixed header row followed by one data row per age 18 through
63 and one final row labeled "64+" — 47 age bands, 48 rows in total,
regardless of which ages appear in the input. -/
theorem claim1_amended_table_shape (d : AllowanceData) (c : String) :
    (create_state_table d c).length = 48
    ∧ (create_state_table d c).head? = some headers
    ∧ (create_state_table d c).tail.map List.head?
        = ((List.range' 18 46).map toString).map some ++ [some "64+"]
    ∧ (create_state_table d c).tail.length = 47 := by
  rw [create_state_table_eq]
  refine ⟨?_, rfl, ?_, ?_⟩
  · simp [ages_length]
  · simp only [List.tail_cons, List.map_map]
    have hmap : List.map (List.head? ∘ renderDataRow d c) ages = List.map some ages :=
      List.map_congr_left (fun a _ => renderDataRow_head d c a)
    rw [hmap]
    simp [ages]
  · simp [ages_length]

/-- C2 (counterexample): the unparseable value "abc" is returned unchanged
by `format_currency`, not rendered as the empty string. -/
theorem claim2_counterexample :
    format_currency "abc" = "abc" ∧ format_currency "abc" ≠ "" := by decide

/-- C2 (amended): `format_currency` renders any parseable numeric string as
"$" followed by the truncated amount with thousands separators; empty
values (or values that clean to empty) render as the empty string; values
that fail to parse are returned unchanged; no input raises an error. -/
theorem claim2_amended_currency (v : String) (n : Int) :
    (parseFloatTruncInt (cleanCurrency v) = some n →
      format_currency v = "$" ++ commaFormat n)
    ∧ (v = "" ∨ cleanCurrency v = "" → format_currency v = "")
    ∧ (v ≠ "" → cleanCurrency v ≠ "" → parseFloatTruncInt (cleanCurrency v) = none →
      format_currency v = v) := by
  refine ⟨?_, ?_, ?_⟩
  · intro hp
    by_cases hv : v = ""
    · subst hv
      have h0 : parseFloatTruncInt (cleanCurrency "") = none := by decide
      rw [h0] at hp
      exact Option.noConfusion hp
    · by_cases hc : cleanCurrency v = ""
      · rw [hc] at hp
        have h0 : parseFloatTruncInt "" = none := by decide
        rw [h0] at hp
        exact Option.noConfusion hp
      · unfold format_currency
        rw [if_neg hv, if_neg hc, hp]
  · rintro (hv | hc)
    · subst hv
      rfl
    · by_cases hv : v = ""
      · subst hv
        rfl
      · unfold format_currency
        rw [if_neg hv, if_pos hc]
  · intro hv hc hp
    unfold format_currency
    rw [if_neg hv, if_neg hc, hp]

theorem claim2_witness :
    format_currency "1234.50" = "$" ++ commaFormat 1234
    ∧ format_currency "" = ""
    ∧ format_currency "abc" = "abc" :=
  ⟨(claim2_amended_currency "1234.50" 1234).1 (by decide),
    (claim2_amended_currency "" 0).2.1 (Or.inl rfl),
    (claim2_amended_currency "abc" 0).2.2 (by decide) (by decide) (by decide)⟩

/-- C3: the concrete currency-formatting examples: "1234.50" renders as
"$1,234", "1234" as "$1,234", "" as "", and "abc" passes through
unchanged. -/
theorem claim3_currency_examples :
    format_currency "1234.50" = "$1,234"
    ∧ format_currency "1234" = "$1,234"
    ∧ format_currency "" = ""
    ∧ format_currency "abc" = "abc" := by decide

/-- C4 (counterexample): with a filesystem on which no path exists, an
explicitly provided CSV path and an explicit class list ["CA"],
`create_ichra_document` raises no error and produces a document whose class
list is the explicit one and which contains one rendered class table — so
generation neither fails with InputNotFound nor ignores the explicit list. -/
theorem claim4_counterexample :
    (create_ichra_document (fun _ => none) (some "allowances.csv") (some ["CA"])).states
        = ["CA"]
    ∧ (create_ichra_document (fun _ => none) (some "allowances.csv")
        (some ["CA"])).tables.length = 1 := by
  constructor <;> rfl

/-- C4 (amended): when an input CSV path is provided but the file does not
exist, generation proceeds without error and produces a document using the
explicitly supplied class-name list; the explicit list is ignored (replaced
by the classes parsed from the file) only when the provided path exists. -/
theorem claim4_amended_input_selection (fs fs2 : String → Option (List RowRec))
    (p : String) (sts : List String) (rows : List RowRec) (hp : p ≠ "")
    (h : fs p = none) (h2 : fs2 p = some rows) :
    (create_ichra_document fs (some p) (some sts)).states = sts
    ∧ (create_ichra_document fs (some p) (some sts)).tables.length = sts.length
    ∧ (create_ichra_document fs2 (some p) (some sts)).states
        = (parse_allowance_csv rows).1 := by
  refine ⟨?_, ?_, ?_⟩ <;> simp [create_ichra_document, hp, h, h2]

theorem claim4_witness :
    (create_ichra_document (fun _ => none) (some "in.csv") (some ["CA", "MA"])).states
        = ["CA", "MA"]
    ∧ (create_ichra_document (fun _ => none) (some "in.csv")
        (some ["CA", "MA"])).tables.length = 2
    ∧ (create_ichra_document (fun _ => some []) (some "in.csv")
        (some ["CA", "MA"])).states = (parse_allowance_csv []).1 := by
  have h := claim4_amended_input_selection (fun _ => none) (fun _ => some [])
    "in.csv" ["CA", "MA"] [] (by decide) rfl rfl
  exact ⟨h.1, h.2.1, h.2.2⟩

/-- C5 (counterexample): a CSV row with trimmed ageFrom "99" is accepted by
the loader and stored under the key "99", which lies outside the band set
{"18", ..., "63", "64+"} — the claimed subset invariant fails. -/
theorem claim5_counterexample :
    (lookupRate (parse_allowance_csv [rowA99]).2 "A" "99").isSome = true
    ∧ "99" ∉ ages := by decide

/-- C5 (amended): the age-band keys stored for a class are exactly the
mapped trimmed ageFrom values of that class's rows (which need not lie in
{"18", ..., "63", "64+"}), and any age band with no stored entry renders as
an age label followed by eight blank cells rather than erroring. -/
theorem claim5_amended_keys_and_blanks (rows : List RowRec) (c a : String)
    (d : AllowanceData) (h : lookupRate d c a = none) :
    ((lookupRate (parse_allowance_csv rows).2 c a).isSome = true
      ↔ ∃ r ∈ rows, rowClassKey r = c ∧ rowAgeKey r = a)
    ∧ renderDataRow d c a = a :: List.replicate 8 "" := by
  constructor
  · rw [lookupRate_parse]
    unfold lastMatchingRate
    rw [foldl_lastMatch_isSome]
    simp
  · exact renderDataRow_blank d c a h

theorem claim5_witness :
    ((lookupRate (parse_allowance_csv [rowA20]).2 "B" "20").isSome = true
      ↔ ∃ r ∈ [rowA20], rowClassKey r = "B" ∧ rowAgeKey r = "20")
    ∧ renderDataRow [] "B" "20" = "20" :: List.replicate 8 "" :=
  claim5_amended_keys_and_blanks [rowA20] "B" "20" [] rfl

/-- C6: the loader keys each row by the trimmed class and the trimmed
ageFrom value; a trimmed ageFrom of "64" maps to the band key "64+", and
the values "18" through "63" map to themselves. -/
theorem claim6_row_keying (r : RowRec) (c a : String) (n : Nat)
    (h1 : 18 ≤ n) (h2 : n ≤ 63) :
    (lookupRate (parse_allowance_csv [r]).2 c a
      = if rowClassKey r = c ∧ rowAgeKey r = a then some (rateRowOf r) else none)
    ∧ rowAgeKey r = ageKeyStr (strip r.ageFrom)
    ∧ ageKeyStr "64" = "64+"
    ∧ ageKeyStr (toString n) = toString n := by
  refine ⟨?_, rfl, rfl, ?_⟩
  · rw [lookupRate_parse]
    rfl
  · have hne : toString n ≠ "64" := by interval_cases n <;> decide
    unfold ageKeyStr
    rw [if_neg hne]

theorem claim6_witness :
    (lookupRate (parse_allowance_csv [rowA20]).2 "A" "20"
      = if rowClassKey rowA20 = "A" ∧ rowAgeKey rowA20 = "20"
        then some (rateRowOf rowA20) else none)
    ∧ rowAgeKey rowA20 = ageKeyStr (strip rowA20.ageFrom)
    ∧ ageKeyStr "64" = "64+"
    ∧ ageKeyStr (toString 20) = toString 20 :=
  claim6_row_keying rowA20 "A" "20" 20 (by decide) (by decide)

/-- C7: the class list returned by the loader is lexicographically sorted
and duplicate-free, and its members are exactly the trimmed class names of
the input rows, characters and case preserved. -/
theorem claim7_class_list (rows : List RowRec) :
    (parse_allowance_csv rows).1.Sorted (· < ·)
    ∧ (parse_allowance_csv rows).1.Nodup
    ∧ ∀ c, c ∈ (parse_allowance_csv rows).1 ↔ ∃ r ∈ rows, rowClassKey r = c := by
  have hs : (parse_allowance_csv rows).1.Sorted (· < ·) :=
    sorted_classesFold rows [] (by simp)
  refine ⟨hs, hs.nodup, ?_⟩
  intro c
  simpa using mem_classesFold rows [] c

/-- C8: for every CSV input and (class, age) key, the stored rate fields
are those of the last input row with that key — duplicates silently
overwrite, and the loader never raises a duplicate-detection error (it is
a total function). -/
theorem claim8_last_row_wins (rows : List RowRec) (c a : String) :
    lookupRate (parse_allowance_csv rows).2 c a = lastMatchingRate rows c a :=
  lookupRate_parse rows c a

/-- C9: the table-of-contents link anchor and the section bookmark are
computed by the same lower-case-and-underscore derivation, with
"New York" yielding "new_york" and "Co-Op" yielding "co_op". -/
theorem claim9_anchor_derivation (s : String) :
    tocAnchor s = sectionAnchor s
    ∧ tocAnchor "New York" = "new_york"
    ∧ sectionAnchor "New York" = "new_york"
    ∧ tocAnchor "Co-Op" = "co_op"
    ∧ sectionAnchor "Co-Op" = "co_op" :=
  ⟨rfl, by decide, by decide, by decide, by decide⟩

/-- C10: `format_currency` is idempotent: formatting an already formatted
value strips the "$" and commas, re-parses the same integer, and produces
the identical output, while unparseable and empty values reach fixpoints
immediately. -/
theorem claim10_idempotent (v : String) :
    format_currency (format_currency v) = format_currency v := by
  by_cases hv : v = ""
  · subst hv
    rfl
  · by_cases hc : cleanCurrency v = ""
    · have h1 : format_currency v = "" := by
        unfold format_currency
        rw [if_neg hv, if_pos hc]
      rw [h1]
      rfl
    · rcases hp : parseFloatTruncInt (cleanCurrency v) with _ | n
      · have h1 : format_currency v = v := by
          unfold format_currency
          rw [if_neg hv, if_neg hc, hp]
        rw [h1, h1]
      · have h1 : format_currency v = "$" ++ commaFormat n := by
          unfold format_currency
          rw [if_neg hv, if_neg hc, hp]
        rw [h1]
        exact format_currency_dollar_fixed n
